import Mathlib

/-!
# Verification of the iOS Appium path-extractor core

Shallow embedding of the two scripts of the repository:

* `extract_paths.py` — per-node XPath computation (`get_xpath`, `find_parent`),
  iOS class-chain locator candidates (`get_ios_class_chain_candidates`),
  interactivity classification (`classify_element`), unique-key construction
  (`create_unique_key`) and the master-catalog accumulation loop of `main`.
* `Page Source Appium Saver/save_app_pages.py` — the filtered page-source hash
  (`compute_filtered_hash`) and the saved-hash novelty check of the capture loop.

The XML element trees are modelled by `UINode`.  Python compares elements by
object identity; identity is modelled by the `eid` field, and trees produced by
the XML parser have pairwise-distinct `eid`s (`(iter t).map eid |>.Nodup`).
The XML parser and the MD5 digest are external collaborators; they enter the
embedding as function parameters (`parse`, `md5`).
-/

/-- A node of the parsed page-source tree: `xml.etree.ElementTree.Element`.
`eid` models Python object identity, `tag` the element tag, `attrib` the
(insertion-ordered, duplicate-free) attribute dictionary, `children` the list
of direct subelements. -/
structure UINode where
  eid : Nat
  tag : String
  attrib : List (String × String)
  children : List UINode

mutual

/-- `element.iter()`: the element followed by all descendants, document
(pre-)order. -/
def UINode.iter : UINode → List UINode
  | ⟨e, tg, al, cs⟩ => ⟨e, tg, al, cs⟩ :: iterChildren cs

/-- `iter` mapped over a list of elements, concatenated. -/
def iterChildren : List UINode → List UINode
  | [] => []
  | c :: cs => c.iter ++ iterChildren cs

end

/-- `elem.attrib.get(key)`: look an attribute up, `none` when absent. -/
def attrGet (n : UINode) (k : String) : Option String :=
  (n.attrib.find? (fun kv => kv.1 == k)).map (fun kv => kv.2)

/-- `elem.attrib.get(key, d)`: attribute lookup with a default. -/
def attrGetD (n : UINode) (k d : String) : String :=
  (attrGet n k).getD d

/-- Python truthiness of an optional string: `None` and `""` are falsy. -/
def optTruthy : Option String → Bool
  | none => false
  | some s => !(s == "")

/-- The node a position (list of child indices) points to, `none` when the
position leaves the tree. -/
def nodeAt? : UINode → List Nat → Option UINode
  | n, [] => some n
  | n, i :: p =>
    match n.children[i]? with
    | some c => nodeAt? c p
    | none => none

/-- `find_parent(root, child)` of `extract_paths.py`: first element of
`root.iter()` having `child` among its direct children (Python `in` compares
by identity, here by `eid`). -/
def find_parent (root child : UINode) : Option UINode :=
  root.iter.find? (fun e => e.children.any (fun c => c.eid == child.eid))

/-- One segment `/tag[index]` exactly as the loop of `get_xpath` prints it. -/
def segJoin (tag : String) (index : Nat) : String :=
  "/" ++ tag ++ "[" ++ toString index ++ "]"

/-- The while-loop of `get_xpath`, with explicit fuel (the Python loop climbs
one parent per iteration, so any fuel at least the tree depth is exact).
Each iteration appends `/tag[index]` where `index` is the 1-based position of
`current` in the list of the parent's children filtered to `current`'s tag. -/
def xpathLoop : Nat → UINode → UINode → List String → List String
  | 0, _, _, segments => segments
  | fuel + 1, root, current, segments =>
    if current.eid == root.eid then segments
    else
      match find_parent root current with
      | none => segments
      | some parent =>
        let siblings := parent.children.filter (fun e => e.tag == current.tag)
        let index := siblings.findIdx (fun e => e.eid == current.eid) + 1
        xpathLoop fuel root parent (segments ++ [segJoin current.tag index])

/-- `get_xpath(element, root)` of `extract_paths.py`: the root maps to
`/root.tag`; otherwise the segments collected bottom-up are reversed and
joined. -/
def get_xpath (element root : UINode) : String :=
  if element.eid == root.eid then "/" ++ root.tag
  else String.join (xpathLoop root.iter.length root element []).reverse

/-- Specification-side path (§4.3 of the spec, amended): for a position
`i :: p`, the segment of the step into child `i` is `/tag[k]` with `k` the
1-based rank of that child among the same-tag children of its parent. -/
def specSegs : UINode → List Nat → List String
  | _, [] => []
  | n, i :: p =>
    match n.children[i]? with
    | none => []
    | some c =>
      segJoin c.tag (((n.children.take i).countP (fun e => e.tag == c.tag)) + 1)
        :: specSegs c p

/-- Python's `str.lower()`, character by character on the underlying data. -/
def strLower (s : String) : String := ⟨s.data.map Char.toLower⟩

/-- `INTERACTIVE_TAGS` of `extract_paths.py`: the configured actionable-tag
set. -/
def INTERACTIVE_TAGS : List String :=
  ["XCUIElementTypeButton",
   "XCUIElementTypeLink",
   "XCUIElementTypeCell",
   "XCUIElementTypeStaticText",
   "XCUIElementTypeMenuItem",
   "XCUIElementTypeCheckBox",
   "XCUIElementTypeSwitch"]

/-- `classify_element(elem)` of `extract_paths.py`: `enabled`/`visible` are
lower-cased and compared to `"true"`, then overridden to true when the
attribute is absent; interactive iff the tag is in `INTERACTIVE_TAGS` and both
flags hold. -/
def classify_element (elem : UINode) : String :=
  let enabled0 := strLower (attrGetD elem "enabled" "") == "true"
  let visible0 := strLower (attrGetD elem "visible" "") == "true"
  let enabled := if attrGet elem "enabled" = none then true else enabled0
  let visible := if attrGet elem "visible" = none then true else visible0
  if decide (elem.tag ∈ INTERACTIVE_TAGS) && enabled && visible then "Interactive"
  else "Non-Interactive"

/-- `get_ios_class_chain_candidates(elem)` of `extract_paths.py`: the four
conditional `candidates.append(...)` statements, in source order; Python's
`if name:` tests truthiness, so an empty string fails the test like `None`. -/
def get_ios_class_chain_candidates (elem : UINode) : List String :=
  let tag := elem.tag
  let name := attrGet elem "name"
  let label := attrGet elem "label"
  let value := attrGet elem "value"
  let candidates : List String := []
  let candidates := if optTruthy name then
      candidates ++ ["**/" ++ tag ++ "[@name='" ++ name.getD "" ++ "']"]
    else candidates
  let candidates := if optTruthy label && (!optTruthy name || label != name) then
      candidates ++ ["**/" ++ tag ++ "[@label='" ++ label.getD "" ++ "']"]
    else candidates
  let candidates := if optTruthy value then
      candidates ++ ["**/" ++ tag ++ "[@value='" ++ value.getD "" ++ "']"]
    else candidates
  let candidates := if optTruthy name && optTruthy label then
      candidates ++ ["**/" ++ tag ++ "[@name='" ++ name.getD "" ++ "' and @label='"
        ++ label.getD "" ++ "']"]
    else candidates
  candidates

/-- Specification-side candidate list (§4.4 of the spec): four generation
rules applied in fixed order, each emitting at most one candidate of the form
`**/tag[@key='value']`, conjunctions joined with `and`. -/
def specCandidates (elem : UINode) : List String :=
  let tag := elem.tag
  let name := attrGet elem "name"
  let label := attrGet elem "label"
  let value := attrGet elem "value"
  (if optTruthy name then
    ["**/" ++ tag ++ "[@name='" ++ name.getD "" ++ "']"] else []) ++
  (if optTruthy label && (!optTruthy name || label != name) then
    ["**/" ++ tag ++ "[@label='" ++ label.getD "" ++ "']"] else []) ++
  (if optTruthy value then
    ["**/" ++ tag ++ "[@value='" ++ value.getD "" ++ "']"] else []) ++
  (if optTruthy name && optTruthy label then
    ["**/" ++ tag ++ "[@name='" ++ name.getD "" ++ "' and @label='"
      ++ label.getD "" ++ "']"] else [])

/-- Specification-side interactivity predicate (§4.5 of the spec): tag in the
actionable set, `enabled` absent or case-insensitively `"true"`, `visible`
absent or case-insensitively `"true"`. -/
def SpecInteractive (elem : UINode) : Prop :=
  elem.tag ∈ INTERACTIVE_TAGS ∧
  (attrGet elem "enabled" = none ∨
    ∃ v, attrGet elem "enabled" = some v ∧ strLower v = "true") ∧
  (attrGet elem "visible" = none ∨
    ∃ v, attrGet elem "visible" = some v ∧ strLower v = "true")

/-- The 8-field tuple returned by `create_unique_key`. -/
structure UKey where
  tag : String
  name : String
  label : String
  value : String
  x : String
  y : String
  width : String
  height : String
deriving DecidableEq

/-- `create_unique_key(elem)` of `extract_paths.py`: every absent attribute
defaults to the empty string. -/
def create_unique_key (elem : UINode) : UKey :=
  ⟨elem.tag,
   attrGetD elem "name" "",
   attrGetD elem "label" "",
   attrGetD elem "value" "",
   attrGetD elem "x" "",
   attrGetD elem "y" "",
   attrGetD elem "width" "",
   attrGetD elem "height" ""⟩

/-- `build_interactive_line(elem, xpath, candidates)` of `extract_paths.py`. -/
def build_interactive_line (elem : UINode) (xpath : String)
    (ios_class_chain_candidates : List String) : String :=
  let name := attrGetD elem "name" ""
  let label := attrGetD elem "label" ""
  let value := attrGetD elem "value" ""
  let x := attrGetD elem "x" ""
  let y := attrGetD elem "y" ""
  let w := attrGetD elem "width" ""
  let h := attrGetD elem "height" ""
  let lines := ["Tag: " ++ elem.tag,
    "name='" ++ name ++ "', label='" ++ label ++ "', value='" ++ value ++ "'",
    "Position: x=" ++ x ++ ", y=" ++ y ++ ", width=" ++ w ++ ", height=" ++ h,
    "Absolute XPath: " ++ xpath]
  let lines := if ios_class_chain_candidates.isEmpty then lines
    else lines ++ ["iOS Class Chain Candidates:"]
      ++ ios_class_chain_candidates.map (fun c => "  - " ++ c)
  String.intercalate "\n" lines

/-- Remove the `value` key from one attribute dictionary
(`del elem.attrib['value']`). -/
def stripAttrib (al : List (String × String)) : List (String × String) :=
  al.filter (fun kv => !(kv.1 == "value"))

mutual

/-- The in-place loop of `compute_filtered_hash`: delete the `value` attribute
from every node of the tree. -/
def stripValues : UINode → UINode
  | ⟨e, tg, al, cs⟩ => ⟨e, tg, stripAttrib al, stripValuesChildren cs⟩

/-- `stripValues` mapped over a child list. -/
def stripValuesChildren : List UINode → List UINode
  | [] => []
  | c :: cs => stripValues c :: stripValuesChildren cs

end

/-- Escaping applied to attribute values by the XML serializer. -/
def escapeAttrib (s : String) : String :=
  String.join (s.data.map (fun c =>
    if c = '&' then "&amp;"
    else if c = '<' then "&lt;"
    else if c = '>' then "&gt;"
    else if c = '"' then "&quot;"
    else String.singleton c))

mutual

/-- Serialization of one element: tag and attributes in stored order,
self-closing when childless — the shape `ET.tostring` produces. -/
def serializeNode : UINode → String
  | ⟨_, tg, al, cs⟩ =>
    let attrs := String.join (al.map (fun kv =>
      " " ++ kv.1 ++ "=\"" ++ escapeAttrib kv.2 ++ "\""))
    if cs.isEmpty then "<" ++ tg ++ attrs ++ " />"
    else "<" ++ tg ++ attrs ++ ">" ++ serializeChildren cs ++ "</" ++ tg ++ ">"

/-- Serialization of a child list, concatenated in order. -/
def serializeChildren : List UINode → String
  | [] => ""
  | c :: cs => serializeNode c ++ serializeChildren cs

end

/-- `ET.tostring(root, encoding='utf-8')`: XML declaration followed by the
serialized tree. -/
def tostring (root : UINode) : String :=
  "<?xml version='1.0' encoding='utf-8'?>\n" ++ serializeNode root

/-- `compute_filtered_hash(page_source)` of `save_app_pages.py`.  The XML
parser and the MD5 digest are external collaborators, passed as functions:
on a parse failure (`parse page_source = none`) the raw text is hashed
directly; otherwise every node's `value` attribute is deleted and the
re-serialized tree is hashed. -/
def compute_filtered_hash (parse : String → Option UINode)
    (md5 : String → String) (page_source : String) : String :=
  match parse page_source with
  | none => md5 page_source
  | some root => md5 (tostring (stripValues root))

mutual

/-- Decidable form of "the two trees are identical except that `value`
attributes may differ (different strings, or present on one side only)":
same tag, same attribute list once `value` is removed, children pairwise
related. -/
def differOnlyValueB : UINode → UINode → Bool
  | ⟨_, tg1, al1, cs1⟩, ⟨_, tg2, al2, cs2⟩ =>
    decide (tg1 = tg2) && decide (stripAttrib al1 = stripAttrib al2) &&
      differOnlyValueChildren cs1 cs2

/-- Pairwise `differOnlyValueB` on child lists of equal length. -/
def differOnlyValueChildren : List UINode → List UINode → Bool
  | [], [] => true
  | c :: cs, d :: ds => differOnlyValueB c d && differOnlyValueChildren cs ds
  | _, _ => false

end

/-- The novelty check of the capture loop of `save_app_pages.py`
(`if h not in saved_hashes: saved_hashes.add(h) ...`), packaged as the
`observe` operation of §4.2: result flag and updated store. -/
def observe (store : List String) (fp : String) : Bool × List String :=
  if fp ∈ store then (false, store) else (true, fp :: store)

/-- `observe` folded over a whole sequence of fingerprints, collecting each
call's boolean result. -/
def runObserve (store : List String) : List String → List Bool
  | [] => []
  | fp :: rest =>
    match observe store fp with
    | (b, store') => b :: runObserve store' rest

/-- The accumulator of `main` in `extract_paths.py`:
`master_interactive_set` (seen unique keys) and `master_interactive_items`
(catalog lines in append order). -/
structure CatalogState where
  keys : List UKey
  items : List String

/-- The body of the per-element loop of `main`: an `Interactive` element with
an unseen unique key is recorded; every other element leaves the catalog
untouched. -/
def processElem (root : UINode) (st : CatalogState) (elem : UINode) :
    CatalogState :=
  if classify_element elem = "Interactive" then
    let k := create_unique_key elem
    if k ∈ st.keys then st
    else ⟨k :: st.keys, st.items ++ [build_interactive_line elem
      (get_xpath elem root) (get_ios_class_chain_candidates elem)]⟩
  else st

/-- `processElem` over `(root, elem)` pairs. -/
def processPair (st : CatalogState) (p : UINode × UINode) : CatalogState :=
  processElem p.1 st p.2

/-- One input file of `main`: the catalog loop over `root.iter()`. -/
def processFile (st : CatalogState) (root : UINode) : CatalogState :=
  root.iter.foldl (processElem root) st

/-- The whole extraction run over a list of parsed input files: the master
catalog lines, in append order. -/
def runExtraction (roots : List UINode) : List String :=
  (roots.foldl processFile ⟨[], []⟩).items

/-- All `(root, element)` pairs of a run, in processing order. -/
def allPairs (roots : List UINode) : List (UINode × UINode) :=
  (roots.map (fun r => r.iter.map (fun e => (r, e)))).flatten

/-- The `Interactive` pairs of a run, in processing order. -/
def interactivePairs (roots : List UINode) : List (UINode × UINode) :=
  (allPairs roots).filter (fun p => classify_element p.2 == "Interactive")

/-- The catalog line of one `(root, element)` pair. -/
def lineOf (p : UINode × UINode) : String :=
  build_interactive_line p.2 (get_xpath p.2 p.1)
    (get_ios_class_chain_candidates p.2)

/-- Specification-side first-occurrence filter (§4.6 of the spec): keep a pair
exactly when its unique key has not been seen before. -/
def firstOcc : List UKey → List (UINode × UINode) → List (UINode × UINode)
  | _, [] => []
  | seen, p :: rest =>
    if create_unique_key p.2 ∈ seen then firstOcc seen rest
    else p :: firstOcc (create_unique_key p.2 :: seen) rest

/-- The seen-key set after `firstOcc` has run. -/
def foSeen : List UKey → List (UINode × UINode) → List UKey
  | seen, [] => seen
  | seen, p :: rest =>
    if create_unique_key p.2 ∈ seen then foSeen seen rest
    else foSeen (create_unique_key p.2 :: seen) rest

/-- Specification-side master catalog: one line per distinct unique key of an
`Interactive` element, in first-encounter order. -/
def specCatalog (roots : List UINode) : List String :=
  (firstOcc [] (interactivePairs roots)).map lineOf

/-- Example tree `root(A, A, B)` from the spec's path-correctness property. -/
def exA1 : UINode := ⟨1, "A", [], []⟩
/-- Second same-tag sibling of the example tree. -/
def exA2 : UINode := ⟨2, "A", [], []⟩
/-- The `B` child of the example tree. -/
def exB : UINode := ⟨3, "B", [], []⟩
/-- The example tree itself. -/
def exTree : UINode := ⟨0, "root", [], [exA1, exA2, exB]⟩

/-- A node detached from `exTree` (its `eid` occurs nowhere in the tree). -/
def exDetached : UINode := ⟨99, "X", [], []⟩

/-- The `Btn` node of the spec's candidate-generation property:
`name="a"`, `label="a"`. -/
def exBtn : UINode := ⟨0, "Btn", [("name", "a"), ("label", "a")], []⟩

/-- A node whose `name` is present but empty while `label` is set. -/
def exEmptyName : UINode := ⟨0, "Btn", [("name", ""), ("label", "x")], []⟩

/-- A node with `name`, `label` and `value` all present but empty. -/
def exAllEmpty : UINode :=
  ⟨0, "Btn", [("name", ""), ("label", ""), ("value", "")], []⟩

/-- An actionable-tag node carrying no `enabled`/`visible` attributes. -/
def exButton : UINode := ⟨0, "XCUIElementTypeButton", [("name", "go")], []⟩

/-- The same node with `enabled="false"`. -/
def exButtonDisabled : UINode :=
  ⟨0, "XCUIElementTypeButton", [("name", "go"), ("enabled", "false")], []⟩

/-- First tree of the hash-invariance example: a `value` at the root and one
at the child. -/
def exV1 : UINode :=
  ⟨0, "root", [("name", "n"), ("value", "abc")], [⟨1, "A", [("value", "x")], []⟩]⟩

/-- Second tree of the hash-invariance example: root `value` absent, child
`value` different. -/
def exV2 : UINode :=
  ⟨0, "root", [("name", "n")], [⟨1, "A", [("value", "y")], []⟩]⟩

/-- A concrete stand-in for the external XML parser: recognises two documents
and rejects everything else. -/
def exParse : String → Option UINode := fun s =>
  if s = "one" then some exV1 else if s = "two" then some exV2 else none

/-- First input file of the catalog-dedup example: an application root with
one interactive button. -/
def exFile1 : UINode :=
  ⟨0, "XCUIElementTypeApplication", [],
    [⟨1, "XCUIElementTypeButton", [("name", "ok"), ("label", "ok"), ("x", "5")], []⟩]⟩

/-- Second input file of the catalog-dedup example: a different parse (fresh
identities) of a button with the identical unique key. -/
def exFile2 : UINode :=
  ⟨2, "XCUIElementTypeApplication", [],
    [⟨3, "XCUIElementTypeButton", [("name", "ok"), ("label", "ok"), ("x", "5")], []⟩]⟩

/-- Catalog file whose button lacks the `name` attribute altogether. -/
def exFileAbsent : UINode :=
  ⟨0, "XCUIElementTypeApplication", [],
    [⟨1, "XCUIElementTypeButton", [("label", "L")], []⟩]⟩

/-- Catalog file whose button carries `name=""` instead. -/
def exFileEmpty : UINode :=
  ⟨2, "XCUIElementTypeApplication", [],
    [⟨3, "XCUIElementTypeButton", [("name", ""), ("label", "L")], []⟩]⟩

theorem iter_def (t : UINode) : t.iter = t :: iterChildren t.children := by
  cases t
  simp [UINode.iter]

theorem iterChildren_nil : iterChildren [] = [] := by
  simp [iterChildren]

theorem iterChildren_cons (c : UINode) (cs : List UINode) :
    iterChildren (c :: cs) = c.iter ++ iterChildren cs := by
  simp [iterChildren]

theorem self_mem_iter (t : UINode) : t ∈ t.iter := by
  rw [iter_def]
  exact List.mem_cons_self _ _

theorem mem_iterChildren {a : UINode} {cs : List UINode} :
    a ∈ iterChildren cs ↔ ∃ c ∈ cs, a ∈ c.iter := by
  induction cs with
  | nil => simp [iterChildren_nil]
  | cons c cs ih =>
    simp only [iterChildren_cons, List.mem_append, ih, List.mem_cons]
    constructor
    · rintro (h | ⟨d, hd, ha⟩)
      · exact ⟨c, Or.inl rfl, h⟩
      · exact ⟨d, Or.inr hd, ha⟩
    · rintro ⟨d, (rfl | hd), ha⟩
      · exact Or.inl ha
      · exact Or.inr ⟨d, hd, ha⟩

theorem mem_iterChildren_of_mem {c : UINode} {cs : List UINode}
    (hc : c ∈ cs) : c ∈ iterChildren cs :=
  mem_iterChildren.mpr ⟨c, hc, self_mem_iter c⟩

theorem sizeOf_children_lt (d : UINode) : sizeOf d.children < sizeOf d := by
  cases d
  simp

theorem child_mem_iterChildren_aux : ∀ (n : Nat) (cs : List UINode),
    sizeOf cs ≤ n → ∀ {e c : UINode},
    e ∈ iterChildren cs → c ∈ e.children → c ∈ iterChildren cs := by
  intro n
  induction n with
  | zero =>
    intro cs hle
    cases cs <;> simp at hle
  | succ n ih =>
    intro cs hle e c he hc
    rcases mem_iterChildren.mp he with ⟨d, hd, hed⟩
    rw [iter_def] at hed
    rcases List.mem_cons.mp hed with rfl | hed'
    · refine mem_iterChildren.mpr ⟨_, hd, ?_⟩
      rw [iter_def]
      exact List.mem_cons_of_mem _ (mem_iterChildren_of_mem hc)
    · refine mem_iterChildren.mpr ⟨d, hd, ?_⟩
      rw [iter_def]
      have hlt : sizeOf d < sizeOf cs := List.sizeOf_lt_of_mem hd
      have hch : sizeOf d.children < sizeOf d := sizeOf_children_lt d
      exact List.mem_cons_of_mem _ (ih d.children (by omega) hed' hc)

theorem child_mem_iterChildren {cs : List UINode} {e c : UINode}
    (he : e ∈ iterChildren cs) (hc : c ∈ e.children) : c ∈ iterChildren cs :=
  child_mem_iterChildren_aux (sizeOf cs) cs (Nat.le_refl _) he hc

theorem child_mem_iter {t e c : UINode} (he : e ∈ t.iter)
    (hc : c ∈ e.children) : c ∈ t.iter := by
  rw [iter_def] at he ⊢
  rcases List.mem_cons.mp he with rfl | he'
  · exact List.mem_cons_of_mem _ (mem_iterChildren_of_mem hc)
  · exact List.mem_cons_of_mem _ (child_mem_iterChildren he' hc)

theorem iter_block_sublist {c : UINode} {cs : List UINode} (hc : c ∈ cs) :
    List.Sublist c.iter (iterChildren cs) := by
  induction cs with
  | nil => cases hc
  | cons d ds ih =>
    rw [iterChildren_cons]
    rcases List.mem_cons.mp hc with rfl | hc'
    · exact List.sublist_append_left _ _
    · exact (ih hc').trans (List.sublist_append_right _ _)

theorem children_sublist_iterChildren (cs : List UINode) :
    List.Sublist cs (iterChildren cs) := by
  induction cs with
  | nil => simp [iterChildren_nil]
  | cons c cs ih =>
    rw [iterChildren_cons, iter_def, List.cons_append]
    exact (ih.trans (List.sublist_append_right _ _)).cons₂ c

theorem iterChildren_sublist_iter (t : UINode) :
    List.Sublist (iterChildren t.children) t.iter := by
  rw [iter_def]
  exact List.sublist_cons_self _ _

theorem iter_sublist_aux : ∀ (n : Nat) (cs : List UINode), sizeOf cs ≤ n →
    ∀ {e : UINode}, e ∈ iterChildren cs → List.Sublist e.iter (iterChildren cs) := by
  intro n
  induction n with
  | zero =>
    intro cs hle
    cases cs <;> simp at hle
  | succ n ih =>
    intro cs hle e he
    rcases mem_iterChildren.mp he with ⟨d, hd, hed⟩
    rw [iter_def] at hed
    rcases List.mem_cons.mp hed with rfl | hed'
    · exact iter_block_sublist hd
    · have hlt : sizeOf d < sizeOf cs := List.sizeOf_lt_of_mem hd
      have hch : sizeOf d.children < sizeOf d := sizeOf_children_lt d
      refine ((ih d.children (by omega) hed').trans ?_).trans (iter_block_sublist hd)
      exact iterChildren_sublist_iter d

theorem iter_sublist_of_mem {t e : UINode} (he : e ∈ t.iter) :
    List.Sublist e.iter t.iter := by
  rw [iter_def] at he
  rcases List.mem_cons.mp he with rfl | he'
  · exact List.Sublist.refl _
  · exact (iter_sublist_aux (sizeOf t.children) t.children (Nat.le_refl _) he').trans
      (iterChildren_sublist_iter t)

theorem nodeAt?_mem : ∀ (p : List Nat) (t x : UINode),
    nodeAt? t p = some x → x ∈ t.iter := by
  intro p
  induction p with
  | nil =>
    intro t x h
    simp [nodeAt?] at h
    rw [← h]
    exact self_mem_iter t
  | cons i p ih =>
    intro t x h
    simp only [nodeAt?] at h
    cases hc : t.children[i]? with
    | none => rw [hc] at h; cases h
    | some c =>
      rw [hc] at h
      have hx : x ∈ c.iter := ih c x h
      have hcm : c ∈ t.children := List.getElem?_mem hc
      rw [iter_def]
      exact List.mem_cons_of_mem _ (mem_iterChildren.mpr ⟨c, hcm, hx⟩)

theorem nodeAt?_snoc : ∀ (p : List Nat) (t : UINode) (i : Nat),
    nodeAt? t (p ++ [i]) = (nodeAt? t p).bind (fun x => x.children[i]?) := by
  intro p
  induction p with
  | nil =>
    intro t i
    rw [List.nil_append]
    simp only [nodeAt?, Option.some_bind]
    cases t.children[i]? with
    | none => rfl
    | some c => rfl
  | cons j p ih =>
    intro t i
    rw [List.cons_append]
    simp only [nodeAt?, Option.some_bind]
    cases t.children[j]? with
    | none => rfl
    | some c => exact ih c i

theorem nodeAt?_tail_mem {t x : UINode} {p : List Nat} (hp : p ≠ [])
    (h : nodeAt? t p = some x) : x ∈ iterChildren t.children := by
  cases p with
  | nil => cases hp rfl
  | cons i p =>
    simp only [nodeAt?] at h
    cases hc : t.children[i]? with
    | none => rw [hc] at h; cases h
    | some c =>
      rw [hc] at h
      exact mem_iterChildren.mpr ⟨c, List.getElem?_mem hc, nodeAt?_mem p c x h⟩

theorem eid_inj : ∀ {l : List UINode}, (l.map UINode.eid).Nodup →
    ∀ {a b : UINode}, a ∈ l → b ∈ l → a.eid = b.eid → a = b := by
  intro l
  induction l with
  | nil => intro _ a b ha; cases ha
  | cons c cs ih =>
    intro hn a b ha hb he
    rw [List.map_cons, List.nodup_cons] at hn
    rcases List.mem_cons.mp ha with rfl | ha' <;>
      rcases List.mem_cons.mp hb with rfl | hb'
    · rfl
    · exact absurd (he ▸ List.mem_map_of_mem UINode.eid hb') hn.1
    · exact absurd (he ▸ List.mem_map_of_mem UINode.eid ha') hn.1
    · exact ih hn.2 ha' hb' he

theorem nodeAt?_ne_root_eid {t x : UINode} {p : List Nat}
    (hn : (t.iter.map UINode.eid).Nodup) (hp : p ≠ [])
    (h : nodeAt? t p = some x) : x.eid ≠ t.eid := by
  have hx : x ∈ iterChildren t.children := nodeAt?_tail_mem hp h
  rw [iter_def, List.map_cons, List.nodup_cons] at hn
  intro he
  exact hn.1 (he ▸ List.mem_map_of_mem UINode.eid hx)

theorem countP_iterChildren (q : UINode → Bool) : ∀ (cs : List UINode),
    (iterChildren cs).countP q = (cs.map (fun d => d.iter.countP q)).sum := by
  intro cs
  induction cs with
  | nil => simp [iterChildren_nil]
  | cons c cs ih => simp [iterChildren_cons, List.countP_append, ih]

theorem countP_le_one_of_nodup {l : List UINode}
    (hn : (l.map UINode.eid).Nodup) (k : Nat) :
    l.countP (fun n => n.eid == k) ≤ 1 := by
  have h1 : l.countP (fun n => n.eid == k) = (l.map UINode.eid).count k := by
    rw [List.count, List.countP_map]
    rfl
  rw [h1]
  exact List.nodup_iff_count_le_one.mp hn k

theorem countP_pos_of_mem {l : List UINode} {a : UINode} (ha : a ∈ l)
    {q : UINode → Bool} (hq : q a = true) : 1 ≤ l.countP q :=
  List.countP_pos_iff.mpr ⟨a, ha, hq⟩

theorem one_le_countP_iter (c : UINode) :
    1 ≤ c.iter.countP (fun n => n.eid == c.eid) :=
  countP_pos_of_mem (self_mem_iter c) (by simp)

theorem deep_not_mem_children {cs : List UINode} {cj c : UINode}
    (hn : ((iterChildren cs).map UINode.eid).Nodup) (hj : cj ∈ cs)
    (hc : c ∈ iterChildren cj.children) : c ∉ cs := by
  intro hmem
  have hle : (iterChildren cs).countP (fun n => n.eid == c.eid) ≤ 1 :=
    countP_le_one_of_nodup hn c.eid
  rw [countP_iterChildren] at hle
  have hfc : 1 ≤ c.iter.countP (fun n => n.eid == c.eid) := one_le_countP_iter c
  have hfcj : 1 ≤ (iterChildren cj.children).countP (fun n => n.eid == c.eid) :=
    countP_pos_of_mem hc (by simp)
  by_cases hcc : cj = c
  · subst hcc
    have h2 : 2 ≤ cj.iter.countP (fun n => n.eid == cj.eid) := by
      rw [iter_def, List.countP_cons]
      simp only [beq_self_eq_true, if_pos]
      omega
    have hmm : cj.iter.countP (fun n => n.eid == cj.eid) ∈
        (cs.map (fun d => d.iter.countP (fun n => n.eid == cj.eid))) :=
      List.mem_map_of_mem _ hj
    have := List.single_le_sum (fun x _ => Nat.zero_le x) _ hmm
    omega
  · rcases List.append_of_mem hmem with ⟨l1, l2, rfl⟩
    have hj' : cj ∈ l1 ∨ cj ∈ l2 := by
      rcases List.mem_append.mp hj with h | h
      · exact Or.inl h
      · rcases List.mem_cons.mp h with h' | h'
        · exact absurd h' hcc
        · exact Or.inr h'
    rw [List.map_append, List.sum_append, List.map_cons, List.sum_cons] at hle
    rcases hj' with h | h
    · have hmm : cj.iter.countP (fun n => n.eid == c.eid) ∈
          (l1.map (fun d => d.iter.countP (fun n => n.eid == c.eid))) :=
        List.mem_map_of_mem _ h
      have h1 := List.single_le_sum (fun x _ => Nat.zero_le x) _ hmm
      have h2 : 1 ≤ cj.iter.countP (fun n => n.eid == c.eid) := by
        rw [iter_def, List.countP_cons]
        omega
      omega
    · have hmm : cj.iter.countP (fun n => n.eid == c.eid) ∈
          (l2.map (fun d => d.iter.countP (fun n => n.eid == c.eid))) :=
        List.mem_map_of_mem _ h
      have h1 := List.single_le_sum (fun x _ => Nat.zero_le x) _ hmm
      have h2 : 1 ≤ cj.iter.countP (fun n => n.eid == c.eid) := by
        rw [iter_def, List.countP_cons]
        omega
      omega

theorem eid_disjoint_append {l1 l2 : List UINode}
    (hn : ((l1 ++ l2).map UINode.eid).Nodup) {a b : UINode}
    (ha : a ∈ l1) (hb : b ∈ l2) : a.eid ≠ b.eid := by
  rw [List.map_append] at hn
  rcases List.nodup_append.mp hn with ⟨-, -, hdisj⟩
  intro he
  exact hdisj (List.mem_map_of_mem UINode.eid ha)
    (he ▸ List.mem_map_of_mem UINode.eid hb)

theorem find?_append_some {α : Type} {l1 l2 : List α} {q : α → Bool} {x : α}
    (h : l1.find? q = some x) : (l1 ++ l2).find? q = some x := by
  induction l1 with
  | nil => cases h
  | cons a l ih =>
    by_cases hq : q a = true
    · rw [List.find?_cons_of_pos _ hq] at h
      rw [List.cons_append, List.find?_cons_of_pos _ hq]
      exact h
    · rw [List.find?_cons_of_neg _ (by simp [hq])] at h
      rw [List.cons_append, List.find?_cons_of_neg _ (by simp [hq])]
      exact ih h

theorem find?_append_of_none {α : Type} {l1 l2 : List α} {q : α → Bool}
    (h : l1.find? q = none) : (l1 ++ l2).find? q = l2.find? q := by
  induction l1 with
  | nil => rw [List.nil_append]
  | cons a l ih =>
    rw [List.find?_eq_none] at h
    have hq : ¬ q a = true := h a (List.mem_cons_self _ _)
    rw [List.cons_append, List.find?_cons_of_neg _ hq]
    exact ih (List.find?_eq_none.mpr (fun x hx => h x (List.mem_cons_of_mem _ hx)))

theorem no_parent_of_eid_not_mem {u c : UINode}
    (h : c.eid ∉ u.iter.map UINode.eid) :
    u.iter.find? (fun e => e.children.any (fun ch => ch.eid == c.eid)) = none := by
  rw [List.find?_eq_none]
  intro e he
  simp only [List.any_eq_true, beq_iff_eq, not_exists]
  rintro ch ⟨hch, hcheid⟩
  exact h (hcheid ▸ List.mem_map_of_mem UINode.eid (child_mem_iter he hch))

theorem find?_block_lift :
    ∀ (cs : List UINode) (j : Nat) {cj c x : UINode},
    cs[j]? = some cj →
    ((iterChildren cs).map UINode.eid).Nodup →
    c ∈ cj.iter →
    cj.iter.find? (fun e => e.children.any (fun ch => ch.eid == c.eid)) = some x →
    (iterChildren cs).find?
      (fun e => e.children.any (fun ch => ch.eid == c.eid)) = some x := by
  intro cs
  induction cs with
  | nil => intro j cj c x hj; cases hj
  | cons c0 cs ih =>
    intro j cj c x hj hn hc hfind
    cases j with
    | zero =>
      rw [List.getElem?_cons_zero, Option.some.injEq] at hj
      subst hj
      rw [iterChildren_cons]
      exact find?_append_some hfind
    | succ j =>
      rw [List.getElem?_cons_succ] at hj
      rw [iterChildren_cons] at hn ⊢
      have hcj : cj ∈ cs := List.getElem?_mem hj
      have hnone : c0.iter.find?
          (fun e => e.children.any (fun ch => ch.eid == c.eid)) = none := by
        apply no_parent_of_eid_not_mem
        intro hmem
        rcases List.mem_map.mp hmem with ⟨a, ha, haeid⟩
        have hb : c ∈ iterChildren cs := mem_iterChildren.mpr ⟨cj, hcj, hc⟩
        exact eid_disjoint_append hn ha hb haeid
      rw [find?_append_of_none hnone]
      have hn' : ((iterChildren cs).map UINode.eid).Nodup := by
        rw [List.map_append] at hn
        exact (List.nodup_append.mp hn).2.1
      exact ih j hj hn' hc hfind

theorem find_parent_nodeAt :
    ∀ (p : List Nat) (t x c : UINode) (i : Nat),
    (t.iter.map UINode.eid).Nodup →
    nodeAt? t p = some x →
    x.children[i]? = some c →
    find_parent t c = some x := by
  intro p
  induction p with
  | nil =>
    intro t x c i _ hp hc
    simp only [nodeAt?, Option.some.injEq] at hp
    subst hp
    rw [find_parent, iter_def]
    apply List.find?_cons_of_pos
    simp only [List.any_eq_true, beq_iff_eq]
    exact ⟨c, List.getElem?_mem hc, rfl⟩
  | cons j p' ih =>
    intro t x c i hn hp hc
    simp only [nodeAt?] at hp
    cases hj : t.children[j]? with
    | none => rw [hj] at hp; cases hp
    | some cj =>
      rw [hj] at hp
      have hx : x ∈ cj.iter := nodeAt?_mem p' cj x hp
      have hcmem : c ∈ x.children := List.getElem?_mem hc
      have hciter : c ∈ cj.iter := child_mem_iter hx hcmem
      have hcdeep : c ∈ iterChildren cj.children := by
        rw [iter_def] at hx
        rcases List.mem_cons.mp hx with rfl | hx'
        · exact mem_iterChildren_of_mem hcmem
        · exact child_mem_iterChildren hx' hcmem
      have hnt : ((iterChildren t.children).map UINode.eid).Nodup := by
        rw [iter_def, List.map_cons, List.nodup_cons] at hn
        exact hn.2
      have hpredt : (t.children.any (fun ch => ch.eid == c.eid)) = false := by
        rw [List.any_eq_false]
        intro s hs
        simp only [beq_iff_eq]
        intro hse
        have hs' : s ∈ iterChildren t.children := mem_iterChildren_of_mem hs
        have hc' : c ∈ iterChildren t.children :=
          mem_iterChildren.mpr ⟨cj, List.getElem?_mem hj, hciter⟩
        have hsc : s = c := eid_inj hnt hs' hc' hse
        subst hsc
        exact deep_not_mem_children hnt (List.getElem?_mem hj) hcdeep hs
      rw [find_parent, iter_def]
      rw [List.find?_cons_of_neg _ (by simp [hpredt])]
      have hnj : (cj.iter.map UINode.eid).Nodup :=
        List.Nodup.sublist ((iter_block_sublist (List.getElem?_mem hj)).map
          UINode.eid) hnt
      have hfj := ih cj x c i hnj hp hc
      rw [find_parent] at hfj
      exact find?_block_lift t.children j hj hnt hciter hfj

theorem children_eids_nodup {t x : UINode}
    (hn : (t.iter.map UINode.eid).Nodup) (hx : x ∈ t.iter) :
    (x.children.map UINode.eid).Nodup := by
  have h1 : (x.iter.map UINode.eid).Nodup :=
    List.Nodup.sublist ((iter_sublist_of_mem hx).map UINode.eid) hn
  have h2 : List.Sublist x.children x.iter :=
    (children_sublist_iterChildren x.children).trans (iterChildren_sublist_iter x)
  exact List.Nodup.sublist (h2.map UINode.eid) h1

theorem findIdx_filter_count :
    ∀ (cs : List UINode) (i : Nat) (c : UINode),
    (cs.map UINode.eid).Nodup →
    cs[i]? = some c →
    (cs.filter (fun e => e.tag == c.tag)).findIdx (fun e => e.eid == c.eid)
      = (cs.take i).countP (fun e => e.tag == c.tag) := by
  intro cs
  induction cs with
  | nil => intro i c _ h; cases i <;> cases h
  | cons a rest ih =>
    intro i c hn hc
    cases i with
    | zero =>
      rw [List.getElem?_cons_zero, Option.some.injEq] at hc
      subst hc
      rw [List.take_zero, List.countP_nil, List.filter_cons]
      rw [if_pos (by simp)]
      rw [List.findIdx_cons]
      simp
    | succ i =>
      rw [List.getElem?_cons_succ] at hc
      rw [List.map_cons, List.nodup_cons] at hn
      have hne : (a.eid == c.eid) = false := by
        have hcm : c ∈ rest := List.getElem?_mem hc
        simp only [beq_eq_false_iff_ne, ne_eq]
        intro he
        exact hn.1 (he ▸ List.mem_map_of_mem UINode.eid hcm)
      rw [List.take_succ_cons, List.countP_cons, List.filter_cons]
      by_cases htag : (a.tag == c.tag) = true
      · rw [if_pos htag, List.findIdx_cons, hne]
        simp only [cond_false]
        rw [ih i c hn.2 hc, htag]
        simp
      · rw [if_neg htag, ih i c hn.2 hc]
        simp only [Bool.not_eq_true] at htag
        rw [htag]
        simp

theorem xpathLoop_self (fuel : Nat) (t : UINode) (segs : List String) :
    xpathLoop fuel t t segs = segs := by
  cases fuel with
  | zero => rw [xpathLoop]
  | succ n => rw [xpathLoop, if_pos (by simp)]

theorem xpath_step {t x c : UINode} {p : List Nat} {i : Nat}
    (hn : (t.iter.map UINode.eid).Nodup)
    (hp : nodeAt? t p = some x) (hc : x.children[i]? = some c)
    (fuel : Nat) (segs : List String) :
    xpathLoop (fuel + 1) t c segs =
      xpathLoop fuel t x (segs ++ [segJoin c.tag
        (((x.children.take i).countP (fun e => e.tag == c.tag)) + 1)]) := by
  have hsnoc : nodeAt? t (p ++ [i]) = some c := by
    rw [nodeAt?_snoc, hp, Option.some_bind, hc]
  have hne2 : c.eid ≠ t.eid := nodeAt?_ne_root_eid hn (by simp) hsnoc
  have hfp : find_parent t c = some x := find_parent_nodeAt p t x c i hn hp hc
  calc xpathLoop (fuel + 1) t c segs
      = xpathLoop fuel t x (segs ++ [segJoin c.tag
          ((x.children.filter (fun e => e.tag == c.tag)).findIdx
            (fun e => e.eid == c.eid) + 1)]) := by
        rw [xpathLoop, if_neg (by simpa using hne2), hfp]
    _ = _ := by
        rw [findIdx_filter_count x.children i c
          (children_eids_nodup hn (nodeAt?_mem p t x hp)) hc]

theorem specSegs_snoc :
    ∀ (p : List Nat) (t x c : UINode) (i : Nat),
    nodeAt? t p = some x → x.children[i]? = some c →
    specSegs t (p ++ [i]) = specSegs t p ++ [segJoin c.tag
      (((x.children.take i).countP (fun e => e.tag == c.tag)) + 1)] := by
  intro p
  induction p with
  | nil =>
    intro t x c i hp hc
    simp only [nodeAt?, Option.some.injEq] at hp
    subst hp
    rw [List.nil_append]
    simp only [specSegs]
    rw [hc]
    exact rfl
  | cons j p' ih =>
    intro t x c i hp hc
    simp only [nodeAt?] at hp
    rw [List.cons_append]
    simp only [specSegs]
    cases hj : t.children[j]? with
    | none => rw [hj] at hp; cases hp
    | some cj =>
      rw [hj] at hp
      have hp' : nodeAt? cj p' = some x := hp
      exact congrArg (fun l => segJoin cj.tag
        ((List.countP (fun e => e.tag == cj.tag) (List.take j t.children)) + 1) :: l)
        (ih cj x c i hp' hc)

theorem depth_lt_size : ∀ (p : List Nat) (t x : UINode),
    nodeAt? t p = some x → p.length < t.iter.length := by
  intro p
  induction p with
  | nil =>
    intro t x _
    rw [iter_def]
    simp
  | cons i p ih =>
    intro t x h
    simp only [nodeAt?] at h
    cases hc : t.children[i]? with
    | none => rw [hc] at h; cases h
    | some c =>
      rw [hc] at h
      have h1 := ih c x h
      have h2 : c.iter.length ≤ (iterChildren t.children).length :=
        List.Sublist.length_le (iter_block_sublist (List.getElem?_mem hc))
      rw [iter_def]
      simp only [List.length_cons]
      omega

theorem xpathLoop_main :
    ∀ (p : List Nat) (t x : UINode),
    (t.iter.map UINode.eid).Nodup →
    nodeAt? t p = some x →
    ∀ (segs : List String) (fuel : Nat), p.length ≤ fuel →
    xpathLoop fuel t x segs = segs ++ (specSegs t p).reverse := by
  intro p
  induction p using List.reverseRecOn with
  | nil =>
    intro t x _ hp segs fuel _
    simp only [nodeAt?, Option.some.injEq] at hp
    subst hp
    rw [xpathLoop_self]
    simp only [specSegs, List.reverse_nil, List.append_nil]
  | append_singleton p i ih =>
    intro t c hn hp segs fuel hfuel
    rw [nodeAt?_snoc] at hp
    cases hx : nodeAt? t p with
    | none => rw [hx] at hp; cases hp
    | some x =>
      rw [hx, Option.some_bind] at hp
      have hlen : p.length + 1 ≤ fuel := by simpa using hfuel
      obtain ⟨f, rfl⟩ : ∃ f, fuel = f + 1 := ⟨fuel - 1, by omega⟩
      rw [xpath_step hn hx hp f segs]
      rw [ih t x hn hx _ f (by omega)]
      rw [specSegs_snoc p t x c i hx hp]
      rw [List.reverse_append]
      simp

theorem get_xpath_root (t : UINode) : get_xpath t t = "/" ++ t.tag := by
  rw [get_xpath, if_pos (by simp)]

theorem get_xpath_reachable {t x : UINode} {p : List Nat}
    (hn : (t.iter.map UINode.eid).Nodup) (hp : p ≠ [])
    (h : nodeAt? t p = some x) :
    get_xpath x t = String.join (specSegs t p) := by
  have hne : x.eid ≠ t.eid := nodeAt?_ne_root_eid hn hp h
  rw [get_xpath, if_neg (by simpa using hne)]
  rw [xpathLoop_main p t x hn h [] _ (le_of_lt (depth_lt_size p t x h))]
  rw [List.nil_append, List.reverse_reverse]

theorem get_xpath_detached {t x : UINode}
    (h : x.eid ∉ t.iter.map UINode.eid) : get_xpath x t = "" := by
  have hne : x.eid ≠ t.eid := by
    intro he
    exact h (he ▸ List.mem_map_of_mem UINode.eid (self_mem_iter t))
  have hfp : find_parent t x = none := by
    rw [find_parent]
    exact no_parent_of_eid_not_mem h
  obtain ⟨m, hm⟩ : ∃ m, t.iter.length = m + 1 := by
    rw [iter_def]
    exact ⟨(iterChildren t.children).length, by simp⟩
  rw [get_xpath, if_neg (by simpa using hne), hm, xpathLoop,
    if_neg (by simpa using hne), hfp]
  exact rfl

theorem strFoldl_append (l : List String) (s : String) :
    l.foldl (fun a b => a ++ b) s = s ++ l.foldl (fun a b => a ++ b) "" := by
  induction l generalizing s with
  | nil => simp
  | cons a l ih =>
    simp only [List.foldl_cons]
    rw [ih (s ++ a), ih ("" ++ a)]
    simp [String.append_assoc]

theorem join_cons (s : String) (l : List String) :
    String.join (s :: l) = s ++ String.join l := by
  rw [String.join, String.join, List.foldl_cons]
  rw [strFoldl_append l ("" ++ s)]
  simp

theorem append_ne_empty_of_left {s t : String} (h : s ≠ "") : s ++ t ≠ "" := by
  intro he
  apply h
  have hd : s.data ++ t.data = ([] : List Char) := congrArg String.data he
  have hs : s.data = [] := (List.append_eq_nil.mp hd).1
  cases s with
  | mk d =>
    cases hs
    rfl

theorem segJoin_ne_empty (tag : String) (k : Nat) : segJoin tag k ≠ "" := by
  rw [segJoin]
  exact append_ne_empty_of_left (append_ne_empty_of_left
    (append_ne_empty_of_left (append_ne_empty_of_left (by decide))))

theorem get_xpath_reachable_ne_empty {t x : UINode} {p : List Nat}
    (hn : (t.iter.map UINode.eid).Nodup)
    (h : nodeAt? t p = some x) : get_xpath x t ≠ "" := by
  cases p with
  | nil =>
    simp only [nodeAt?, Option.some.injEq] at h
    subst h
    rw [get_xpath_root]
    exact append_ne_empty_of_left (by decide)
  | cons i p' =>
    rw [get_xpath_reachable hn (by simp) h]
    have hh := h
    simp only [nodeAt?] at hh
    cases hc : t.children[i]? with
    | none => rw [hc] at hh; cases hh
    | some c =>
      have hjoin : String.join (specSegs t (i :: p')) =
          segJoin c.tag (((t.children.take i).countP
            (fun e => e.tag == c.tag)) + 1) ++ String.join (specSegs c p') := by
        simp only [specSegs]
        rw [hc]
        exact join_cons _ _
      rw [hjoin]
      exact append_ne_empty_of_left (segJoin_ne_empty _ _)

theorem differ_serial_aux : ∀ (n : Nat),
    (∀ (c d : UINode), sizeOf c ≤ n → differOnlyValueB c d = true →
      serializeNode (stripValues c) = serializeNode (stripValues d)) ∧
    (∀ (cs ds : List UINode), sizeOf cs ≤ n →
      differOnlyValueChildren cs ds = true →
      serializeChildren (stripValuesChildren cs)
        = serializeChildren (stripValuesChildren ds) ∧ cs.isEmpty = ds.isEmpty) := by
  intro n
  induction n with
  | zero =>
    constructor
    · intro c d hle
      cases c
      simp at hle
    · intro cs ds hle
      cases cs <;> simp at hle
  | succ n ih =>
    constructor
    · intro c d hle h
      cases c with
      | mk e1 t1 a1 cs1 =>
        cases d with
        | mk e2 t2 a2 cs2 =>
          rw [differOnlyValueB] at h
          simp only [Bool.and_eq_true, decide_eq_true_eq] at h
          obtain ⟨⟨ht, ha⟩, hch⟩ := h
          simp only [UINode.mk.sizeOf_spec] at hle
          have hsz : sizeOf cs1 ≤ n := by omega
          obtain ⟨hser, hemp⟩ := ih.2 cs1 cs2 hsz hch
          rw [stripValues, stripValues, serializeNode, serializeNode]
          have hempty : (stripValuesChildren cs1).isEmpty
              = (stripValuesChildren cs2).isEmpty := by
            cases cs1 <;> cases cs2 <;>
              simp_all [stripValuesChildren, List.isEmpty]
          rw [ht, ha, hser, hempty]
    · intro cs ds hle h
      cases cs with
      | nil =>
        cases ds with
        | nil => exact ⟨rfl, rfl⟩
        | cons d ds => simp [differOnlyValueChildren] at h
      | cons c cs =>
        cases ds with
        | nil => simp [differOnlyValueChildren] at h
        | cons d ds =>
          rw [differOnlyValueChildren, Bool.and_eq_true] at h
          obtain ⟨h1, h2⟩ := h
          simp only [List.cons.sizeOf_spec] at hle
          have hc : sizeOf c ≤ n := by omega
          have hcs : sizeOf cs ≤ n := by omega
          obtain ⟨hser, -⟩ := ih.2 cs ds hcs h2
          have hnode := ih.1 c d hc h1
          rw [stripValuesChildren, stripValuesChildren,
            serializeChildren, serializeChildren, hnode, hser]
          exact ⟨rfl, rfl⟩

theorem differ_tostring {t1 t2 : UINode}
    (h : differOnlyValueB t1 t2 = true) :
    tostring (stripValues t1) = tostring (stripValues t2) := by
  rw [tostring, tostring,
    (differ_serial_aux (sizeOf t1)).1 t1 t2 (Nat.le_refl _) h]

theorem runObserve_spec : ∀ (fps store : List String) (i : Nat),
    i < fps.length →
    ((runObserve store fps)[i]? = some true ↔
      ∃ v, fps[i]? = some v ∧ v ∉ store ∧ v ∉ fps.take i) := by
  intro fps
  induction fps with
  | nil => intro store i h; simp at h
  | cons f rest ih =>
    intro store i h
    rw [runObserve, observe]
    cases i with
    | zero =>
      by_cases hf : f ∈ store
      · rw [if_pos hf]
        simp [hf]
      · rw [if_neg hf]
        simp [hf]
    | succ i =>
      have hlen : i < rest.length := by simpa using h
      simp only [List.getElem?_cons_succ, List.take_succ_cons]
      by_cases hf : f ∈ store
      · rw [if_pos hf]
        show (runObserve store rest)[i]? = some true ↔ _
        rw [ih store i hlen]
        constructor
        · rintro ⟨v, hv, hvs, hvt⟩
          refine ⟨v, hv, hvs, ?_⟩
          simp only [List.mem_cons, not_or]
          exact ⟨fun he => hvs (he ▸ hf), hvt⟩
        · rintro ⟨v, hv, hvs, hvt⟩
          simp only [List.mem_cons, not_or] at hvt
          exact ⟨v, hv, hvs, hvt.2⟩
      · rw [if_neg hf]
        show (runObserve (f :: store) rest)[i]? = some true ↔ _
        rw [ih (f :: store) i hlen]
        constructor
        · rintro ⟨v, hv, hvs, hvt⟩
          simp only [List.mem_cons, not_or] at hvs
          refine ⟨v, hv, hvs.2, ?_⟩
          simp only [List.mem_cons, not_or]
          exact ⟨hvs.1, hvt⟩
        · rintro ⟨v, hv, hvs, hvt⟩
          simp only [List.mem_cons, not_or] at hvt
          refine ⟨v, hv, ?_, hvt.2⟩
          simp only [List.mem_cons, not_or]
          exact ⟨hvt.1, hvs⟩

theorem enabled_flag_iff (elem : UINode) (key : String) :
    ((if attrGet elem key = none then true
      else strLower (attrGetD elem key "") == "true") = true) ↔
    (attrGet elem key = none ∨
      ∃ v, attrGet elem key = some v ∧ strLower v = "true") := by
  cases he : attrGet elem key with
  | none => simp [attrGetD, he]
  | some v => simp [attrGetD, he]

theorem ite_interactive_iff {b : Bool} :
    (if b then "Interactive" else "Non-Interactive") = "Interactive" ↔
      b = true := by
  cases b with
  | false =>
    constructor
    · intro h
      exact absurd h (by decide)
    · intro h
      cases h
  | true => simp

theorem classify_iff (elem : UINode) :
    classify_element elem = "Interactive" ↔ SpecInteractive elem := by
  rw [classify_element]
  show (if (decide (elem.tag ∈ INTERACTIVE_TAGS) &&
      (if attrGet elem "enabled" = none then true
        else strLower (attrGetD elem "enabled" "") == "true") &&
      (if attrGet elem "visible" = none then true
        else strLower (attrGetD elem "visible" "") == "true"))
    then "Interactive" else "Non-Interactive") = "Interactive" ↔ _
  rw [ite_interactive_iff, Bool.and_eq_true, Bool.and_eq_true,
    decide_eq_true_eq, SpecInteractive]
  rw [enabled_flag_iff elem "enabled", enabled_flag_iff elem "visible"]
  tauto

theorem candidates_eq_spec (elem : UINode) :
    get_ios_class_chain_candidates elem = specCandidates elem := by
  rw [get_ios_class_chain_candidates, specCandidates]
  by_cases h1 : optTruthy (attrGet elem "name") = true <;>
  by_cases h2 : optTruthy (attrGet elem "label") = true <;>
  by_cases h3 : optTruthy (attrGet elem "value") = true <;>
  by_cases h4 : ((attrGet elem "label") != (attrGet elem "name")) = true <;>
  simp [h1, h2, h3, h4]

theorem processFile_eq_pairs (root : UINode) (st : CatalogState) :
    processFile st root =
      (root.iter.map (fun e => (root, e))).foldl processPair st := by
  rw [processFile, List.foldl_map]
  rfl

theorem processPair_skip {st : CatalogState} {p : UINode × UINode}
    (h : ¬ classify_element p.2 = "Interactive") : processPair st p = st := by
  rw [processPair, processElem, if_neg h]

theorem foldl_processPair_filter :
    ∀ (l : List (UINode × UINode)) (st : CatalogState),
    l.foldl processPair st =
      (l.filter (fun p => classify_element p.2 == "Interactive")).foldl
        processPair st := by
  intro l
  induction l with
  | nil => intro st; rfl
  | cons p l ih =>
    intro st
    rw [List.foldl_cons, List.filter_cons]
    by_cases hp : (classify_element p.2 == "Interactive") = true
    · rw [if_pos hp, List.foldl_cons, ih]
    · rw [if_neg hp, processPair_skip (by simpa using hp), ih]

theorem runFold_eq_allPairs : ∀ (roots : List UINode) (st : CatalogState),
    roots.foldl processFile st = (allPairs roots).foldl processPair st := by
  intro roots
  induction roots with
  | nil => intro st; rfl
  | cons r rs ih =>
    intro st
    rw [List.foldl_cons, allPairs, List.map_cons, List.flatten_cons,
      List.foldl_append, processFile_eq_pairs, ih, allPairs]

theorem foldl_processPair_invariant :
    ∀ (l : List (UINode × UINode)) (st : CatalogState),
    (∀ p ∈ l, classify_element p.2 = "Interactive") →
    l.foldl processPair st =
      ⟨foSeen st.keys l, st.items ++ (firstOcc st.keys l).map lineOf⟩ := by
  intro l
  induction l with
  | nil =>
    intro st _
    rw [List.foldl_nil, foSeen, firstOcc]
    cases st
    simp
  | cons p l ih =>
    intro st hcl
    rw [List.foldl_cons, foSeen, firstOcc]
    have hp := hcl p (List.mem_cons_self _ _)
    have htail := fun q hq => hcl q (List.mem_cons_of_mem _ hq)
    by_cases hk : create_unique_key p.2 ∈ st.keys
    · rw [if_pos hk, if_pos hk]
      have hstep : processPair st p = st := by
        simp only [processPair, processElem, if_pos hp, if_pos hk]
      rw [hstep, ih st htail]
    · rw [if_neg hk, if_neg hk]
      have hstep : processPair st p =
          ⟨create_unique_key p.2 :: st.keys, st.items ++ [lineOf p]⟩ := by
        simp only [processPair, processElem, if_pos hp, if_neg hk]
        rfl
      rw [hstep, ih _ htail]
      simp

theorem runExtraction_eq_specCatalog (roots : List UINode) :
    runExtraction roots = specCatalog roots := by
  rw [runExtraction, runFold_eq_allPairs, foldl_processPair_filter]
  have hcl : ∀ p ∈ (allPairs roots).filter
      (fun p => classify_element p.2 == "Interactive"),
      classify_element p.2 = "Interactive" := by
    intro p hp
    simpa using List.of_mem_filter hp
  rw [foldl_processPair_invariant _ _ hcl]
  rw [specCatalog, interactivePairs]
  simp

theorem classify_ite_or {α : Type} (b : Bool) (x y : α) :
    (if b then x else y) = x ∨ (if b then x else y) = y := by
  cases b
  · exact Or.inr rfl
  · exact Or.inl rfl

theorem classify_cases (elem : UINode) :
    classify_element elem = "Interactive" ∨
    classify_element elem = "Non-Interactive" := by
  rw [classify_element]
  show (if (decide (elem.tag ∈ INTERACTIVE_TAGS) &&
      (if attrGet elem "enabled" = none then true
        else strLower (attrGetD elem "enabled" "") == "true") &&
      (if attrGet elem "visible" = none then true
        else strLower (attrGetD elem "visible" "") == "true"))
    then "Interactive" else "Non-Interactive") = "Interactive" ∨ _ = "Non-Interactive"
  exact classify_ite_or _ _ _

/-- C1, counterexample: in the tree `root(A, A, B)` the code's `get_xpath`
returns `/A[2]` for the second `A` child and `/B[1]` for `B` — the root's own
segment is never emitted, so the spec's promised `/root/A[2]` and `/root/B[1]`
are wrong. -/
theorem C1_counterexample :
    get_xpath exA2 exTree = "/A[2]" ∧ "/A[2]" ≠ "/root/A[2]" ∧
    get_xpath exB exTree = "/B[1]" ∧ "/B[1]" ≠ "/root/B[1]" :=
  ⟨by decide, by decide, by decide, by decide⟩

/-- C1, amended: for the root, `get_xpath` returns `/root_tag` with no index;
for every node reachable from the root of a tree with pairwise-distinct node
identities, `get_xpath` returns the concatenation of segments `/tag[k]` along
the path from the root's child down to the node (the root's own segment is
omitted), where each `k` is the 1-based rank of that step's node among the
same-tag children of its parent (`specSegs`). -/
theorem C1_amended_path :
    (∀ t : UINode, get_xpath t t = "/" ++ t.tag) ∧
    (∀ (t x : UINode) (p : List Nat),
      (t.iter.map UINode.eid).Nodup → p ≠ [] → nodeAt? t p = some x →
      get_xpath x t = String.join (specSegs t p)) :=
  ⟨get_xpath_root, fun _ _ _ hn hp h => get_xpath_reachable hn hp h⟩

/-- Witness for C1's amended theorem: in `root(A, A, B)` the second `A` child
sits at position `[1]`, the hypotheses hold, and the resulting path is
`/A[2]`. -/
theorem C1_amended_witness :
    (exTree.iter.map UINode.eid).Nodup ∧ ([1] : List Nat) ≠ [] ∧
    nodeAt? exTree [1] = some exA2 ∧ get_xpath exA2 exTree = "/A[2]" := by
  refine ⟨by decide, by decide, rfl, ?_⟩
  have h := C1_amended_path.2 exTree exA2 [1] (by decide) (by decide) rfl
  rw [h]
  decide

/-- C2: the filtered page-source hash is invariant under changes confined to
`value` attributes — for any parser and digest function, two parsed trees that
are identical except for `value` attributes (different strings, or present on
one side only) hash to equal digests. -/
theorem C2_hash_value_invariant :
    ∀ (parse : String → Option UINode) (md5 : String → String)
      (s1 s2 : String) (t1 t2 : UINode),
    parse s1 = some t1 → parse s2 = some t2 →
    differOnlyValueB t1 t2 = true →
    compute_filtered_hash parse md5 s1 = compute_filtered_hash parse md5 s2 := by
  intro parse md5 s1 s2 t1 t2 h1 h2 hd
  rw [compute_filtered_hash, compute_filtered_hash, h1, h2]
  exact congrArg md5 (differ_tostring hd)

/-- Witness for C2: two concrete documents whose trees differ in a changed
root `value` and a changed child `value` hash identically. -/
theorem C2_witness :
    exParse "one" = some exV1 ∧ exParse "two" = some exV2 ∧
    differOnlyValueB exV1 exV2 = true ∧
    compute_filtered_hash exParse (fun s => s) "one"
      = compute_filtered_hash exParse (fun s => s) "two" :=
  ⟨rfl, rfl, by decide,
    C2_hash_value_invariant exParse (fun s => s) "one" "two" exV1 exV2
      rfl rfl (by decide)⟩

/-- C3: `observe` returns true and inserts exactly when the fingerprint is
absent, returns false leaving the store unchanged when present, and over a
whole sequence (started from the empty store) returns true at exactly the
first occurrence of each distinct fingerprint. -/
theorem C3_observe_novelty :
    (∀ (store : List String) (fp : String), fp ∈ store →
      observe store fp = (false, store)) ∧
    (∀ (store : List String) (fp : String), fp ∉ store →
      observe store fp = (true, fp :: store)) ∧
    (∀ (fps : List String) (i : Nat), i < fps.length →
      ((runObserve [] fps)[i]? = some true ↔
        ∃ v, fps[i]? = some v ∧ v ∉ fps.take i)) := by
  refine ⟨?_, ?_, ?_⟩
  · intro store fp h
    rw [observe, if_pos h]
  · intro store fp h
    rw [observe, if_neg h]
  · intro fps i h
    rw [runObserve_spec fps [] i h]
    simp

/-- Witness for C3 at concrete stores and the sequence `["h", "h"]`. -/
theorem C3_witness :
    observe ["h"] "h" = (false, ["h"]) ∧
    observe ([] : List String) "h" = (true, ["h"]) ∧
    ((runObserve [] ["h", "h"])[1]? = some true ↔
      ∃ v, ["h", "h"][1]? = some v ∧ v ∉ ["h", "h"].take 1) :=
  ⟨C3_observe_novelty.1 ["h"] "h" (by decide),
   C3_observe_novelty.2.1 [] "h" (by decide),
   C3_observe_novelty.2.2 ["h", "h"] 1 (by decide)⟩

/-- C4: for a node detached from the root (its identity occurs nowhere in the
tree), `get_xpath` returns the empty string — a defined per-node value that no
reachable node can produce, so callers can tell the lookup failed; reachable
nodes always yield a nonempty path. -/
theorem C4_detached_signal :
    (∀ t x : UINode, x.eid ∉ t.iter.map UINode.eid → get_xpath x t = "") ∧
    (∀ (t x : UINode) (p : List Nat), (t.iter.map UINode.eid).Nodup →
      nodeAt? t p = some x → get_xpath x t ≠ "") :=
  ⟨fun _ _ h => get_xpath_detached h,
   fun _ _ _ hn h => get_xpath_reachable_ne_empty hn h⟩

/-- Witness for C4: a concrete detached node maps to `""`, a concrete
reachable node does not. -/
theorem C4_witness :
    (exDetached.eid ∉ exTree.iter.map UINode.eid ∧
      get_xpath exDetached exTree = "") ∧
    ((exTree.iter.map UINode.eid).Nodup ∧ nodeAt? exTree [0] = some exA1 ∧
      get_xpath exA1 exTree ≠ "") :=
  ⟨⟨by decide, C4_detached_signal.1 exTree exDetached (by decide)⟩,
   ⟨by decide, rfl, C4_detached_signal.2 exTree exA1 [0] (by decide) rfl⟩⟩

/-- C5: `classify_element` returns `"Interactive"` iff the tag is in the
actionable set and `enabled` is absent or case-insensitively `"true"` and
`visible` is absent or case-insensitively `"true"`; in particular an
actionable-tag node without the two attributes is Interactive, and any node
with `enabled="false"` is Non-Interactive. -/
theorem C5_classifier :
    (∀ elem : UINode,
      classify_element elem = "Interactive" ↔ SpecInteractive elem) ∧
    (∀ elem : UINode, elem.tag ∈ INTERACTIVE_TAGS →
      attrGet elem "enabled" = none → attrGet elem "visible" = none →
      classify_element elem = "Interactive") ∧
    (∀ elem : UINode, attrGet elem "enabled" = some "false" →
      classify_element elem = "Non-Interactive") := by
  refine ⟨classify_iff, ?_, ?_⟩
  · intro elem htag he hv
    exact (classify_iff elem).mpr ⟨htag, Or.inl he, Or.inl hv⟩
  · intro elem he
    rcases classify_cases elem with h | h
    · exfalso
      rcases ((classify_iff elem).mp h).2.1 with hn | ⟨v, hov, hlv⟩
      · rw [he] at hn
        cases hn
      · rw [he, Option.some.injEq] at hov
        subst hov
        exact absurd hlv (by decide)
    · exact h

/-- Witness for C5: a concrete actionable button without state attributes is
Interactive; the same button with `enabled="false"` is Non-Interactive. -/
theorem C5_witness :
    (exButton.tag ∈ INTERACTIVE_TAGS ∧ attrGet exButton "enabled" = none ∧
      attrGet exButton "visible" = none ∧
      classify_element exButton = "Interactive") ∧
    (attrGet exButtonDisabled "enabled" = some "false" ∧
      classify_element exButtonDisabled = "Non-Interactive") :=
  ⟨⟨by decide, rfl, rfl, C5_classifier.2.1 exButton (by decide) rfl rfl⟩,
   ⟨rfl, C5_classifier.2.2 exButtonDisabled rfl⟩⟩

/-- C6: the candidate list is exactly the four generation rules applied in
fixed order (name; label when name is untruthy or label differs; value;
compound name-and-label), each emitting at most one candidate of the
templated form; the `Btn` node with `name="a"`, `label="a"` yields exactly
the two candidates of the spec, in order. -/
theorem C6_candidate_rules :
    (∀ elem : UINode,
      get_ios_class_chain_candidates elem = specCandidates elem) ∧
    get_ios_class_chain_candidates exBtn =
      ["**/Btn[@name='a']", "**/Btn[@name='a' and @label='a']"] :=
  ⟨candidates_eq_spec, by decide⟩

/-- C7: the master catalog equals the first-occurrence filter (by the 8-field
unique key) of the Interactive elements of the whole run, in processing
order; two files carrying identical-key buttons produce exactly one entry. -/
theorem C7_catalog_dedup :
    (∀ roots : List UINode, runExtraction roots = specCatalog roots) ∧
    (runExtraction [exFile1, exFile2]).length = 1 :=
  ⟨runExtraction_eq_specCatalog, by decide⟩

/-- C8: when the input does not parse, `compute_filtered_hash` hashes the raw
text directly — for any parser and digest function, a parse failure yields
`md5 page_source`. -/
theorem C8_parse_fallback :
    ∀ (parse : String → Option UINode) (md5 : String → String) (s : String),
    parse s = none → compute_filtered_hash parse md5 s = md5 s := by
  intro parse md5 s h
  rw [compute_filtered_hash, h]

/-- Witness for C8: a concrete unparseable document falls back to the raw
digest. -/
theorem C8_witness :
    exParse "<bad" = none ∧
    compute_filtered_hash exParse (fun s => s) "<bad" = "<bad" :=
  ⟨rfl, C8_parse_fallback exParse (fun s => s) "<bad" rfl⟩

/-- C9: an attribute that is present but empty is treated like an absent one:
if `name`, `label`, `value` are each absent-or-empty no candidate is emitted,
and an empty `name` suppresses the name-based and compound rules, leaving
only the label and value rules. -/
theorem C9_empty_as_absent :
    (∀ elem : UINode,
      (attrGet elem "name" = none ∨ attrGet elem "name" = some "") →
      (attrGet elem "label" = none ∨ attrGet elem "label" = some "") →
      (attrGet elem "value" = none ∨ attrGet elem "value" = some "") →
      get_ios_class_chain_candidates elem = []) ∧
    (∀ elem : UINode, attrGet elem "name" = some "" →
      get_ios_class_chain_candidates elem =
        (if optTruthy (attrGet elem "label") then
          ["**/" ++ elem.tag ++ "[@label='" ++
            (attrGet elem "label").getD "" ++ "']"]
         else []) ++
        (if optTruthy (attrGet elem "value") then
          ["**/" ++ elem.tag ++ "[@value='" ++
            (attrGet elem "value").getD "" ++ "']"]
         else [])) := by
  constructor
  · intro elem hn hl hv
    have hn' : optTruthy (attrGet elem "name") = false := by
      rcases hn with h | h <;> simp [optTruthy, h]
    have hl' : optTruthy (attrGet elem "label") = false := by
      rcases hl with h | h <;> simp [optTruthy, h]
    have hv' : optTruthy (attrGet elem "value") = false := by
      rcases hv with h | h <;> simp [optTruthy, h]
    rw [get_ios_class_chain_candidates]
    simp [hn', hl', hv']
  · intro elem hname
    have hn' : optTruthy (attrGet elem "name") = false := by
      simp [optTruthy, hname]
    rw [get_ios_class_chain_candidates]
    by_cases hl : optTruthy (attrGet elem "label") = true <;>
      by_cases hv : optTruthy (attrGet elem "value") = true <;>
      simp [hn', hl, hv]

/-- Witness for C9: the node with all three identity attributes empty yields
no candidates; the node with empty `name` and `label="x"` yields only the
label candidate. -/
theorem C9_witness :
    (get_ios_class_chain_candidates exAllEmpty = []) ∧
    (attrGet exEmptyName "name" = some "" ∧
      get_ios_class_chain_candidates exEmptyName = ["**/Btn[@label='x']"]) := by
  constructor
  · exact C9_empty_as_absent.1 exAllEmpty (Or.inr rfl) (Or.inr rfl) (Or.inr rfl)
  · refine ⟨rfl, ?_⟩
    rw [C9_empty_as_absent.2 exEmptyName rfl]
    decide

/-- C10: the unique key maps every absent attribute to the empty string — the
key's `name` field of a node without `name` is `""`, keys agree whenever the
tag and the defaulted attribute reads agree, and a catalog run over one file
whose button lacks `name` and another whose button has `name=""` (all else
equal) deduplicates to a single entry. -/
theorem C10_key_absent_empty :
    (∀ elem : UINode, attrGet elem "name" = none →
      (create_unique_key elem).name = "") ∧
    (∀ e1 e2 : UINode, e1.tag = e2.tag →
      attrGetD e1 "name" "" = attrGetD e2 "name" "" →
      attrGetD e1 "label" "" = attrGetD e2 "label" "" →
      attrGetD e1 "value" "" = attrGetD e2 "value" "" →
      attrGetD e1 "x" "" = attrGetD e2 "x" "" →
      attrGetD e1 "y" "" = attrGetD e2 "y" "" →
      attrGetD e1 "width" "" = attrGetD e2 "width" "" →
      attrGetD e1 "height" "" = attrGetD e2 "height" "" →
      create_unique_key e1 = create_unique_key e2) ∧
    (runExtraction [exFileAbsent, exFileEmpty]).length = 1 := by
  refine ⟨?_, ?_, by decide⟩
  · intro elem h
    rw [create_unique_key]
    simp [attrGetD, h]
  · intro e1 e2 h0 h1 h2 h3 h4 h5 h6 h7
    rw [create_unique_key, create_unique_key, h0, h1, h2, h3, h4, h5, h6, h7]

/-- Witness for C10: the button without `name` and the button with `name=""`
(same label) have equal unique keys, and the absent `name` maps to `""`. -/
theorem C10_witness :
    (attrGet ⟨1, "XCUIElementTypeButton", [("label", "L")], []⟩ "name" = none ∧
     (create_unique_key
       ⟨1, "XCUIElementTypeButton", [("label", "L")], []⟩).name = "") ∧
    create_unique_key ⟨1, "XCUIElementTypeButton", [("label", "L")], []⟩ =
      create_unique_key
        ⟨3, "XCUIElementTypeButton", [("name", ""), ("label", "L")], []⟩ :=
  ⟨⟨rfl, C10_key_absent_empty.1 _ rfl⟩,
   C10_key_absent_empty.2.1 _ _ rfl rfl rfl rfl rfl rfl rfl rfl⟩
